import Mathlib

set_option maxRecDepth 200000

/- Shallow embedding of the liquidation-density aggregation core of
   `fetchers/fetch_hyperliquid.py` (whose `aggregate_positions`,
   `get_bucket_size`, `get_lev_cat` and `build_liq_map` are duplicated
   near-verbatim in `fetchers/fetch_drift.py` and `fetchers/fetch_gmx.py`),
   together with the leverage logic of the Hyperliquid and Drift position
   normalizers.  Python floats are modelled as exact rationals; a Python
   string that may fail to parse as a float is modelled as `Option ℚ`
   (`none` = empty / unparseable). -/

/-- Position side; the Python code stores the strings `'Long'` / `'Short'`. -/
inductive Dir where
  | long
  | short
deriving DecidableEq, Repr

/-- One normalized position, the dict built by `fetch_positions`
    (fetch_hyperliquid.py lines 56-65).  `entryPx` is kept as the raw string
    exactly as the Python code does; `liquidationPx` is the raw string,
    modelled as `Option ℚ` (`none` for the empty or unparseable string). -/
structure Position where
  coin : String
  direction : Dir
  size : ℚ
  entryPx : String
  leverage : ℚ
  positionValue : ℚ
  unrealizedPnl : ℚ
  liquidationPx : Option ℚ
deriving DecidableEq, Repr

/-- A trader record as consumed by `aggregate_positions` / `build_liq_map`:
    an address plus its attached position list. -/
structure Trader where
  address : String
  positions : List Position
deriving DecidableEq, Repr

/-- The `markets_dict` restricted to what the core reads from it:
    coin -> current mark price (`markets_dict.get(coin, {}).get('markPx', 0)`). -/
def PriceTable : Type := List (String × ℚ)

/-- Price lookup `markets_dict.get(coin, {}).get('markPx', 0)`: a missing coin yields 0. -/
def lookupPrice (tbl : PriceTable) (c : String) : ℚ :=
  match List.find? (fun e => e.1 = c) tbl with
  | some e => e.2
  | none => 0

/-- Helper for `firstDedup`: drop the elements already seen. -/
def firstDedupAux {α : Type} [DecidableEq α] (seen : List α) :
    List α → List α
  | [] => []
  | a :: l =>
    if a ∈ seen then firstDedupAux seen l
    else a :: firstDedupAux (a :: seen) l

/-- Keep-first-occurrence deduplication: the iteration order of a Python
    dict whose keys were inserted in traversal order (`defaultdict` keys). -/
def firstDedup {α : Type} [DecidableEq α] (l : List α) : List α :=
  firstDedupAux [] l

/-- Insert into an ascending list, used to model Python `sorted(...)` on the
    (distinct) bucket keys. -/
def insertAsc (a : ℚ) : List ℚ → List ℚ
  | [] => [a]
  | b :: bs => if a ≤ b then a :: b :: bs else b :: insertAsc a bs

/-- Ascending sort of the bucket keys, modelling `sorted(buckets.items())`. -/
def sortAsc : List ℚ → List ℚ
  | [] => []
  | a :: l => insertAsc a (sortAsc l)

/-- Stable insertion for descending order by a numeric key: the element is
    placed before the first strictly smaller key, so equal keys keep input
    order, exactly as Python `list.sort(key=..., reverse=True)` (stable). -/
def insertDescBy {α : Type} (key : α → ℚ) (a : α) : List α → List α
  | [] => [a]
  | b :: bs => if key b ≤ key a then a :: b :: bs else b :: insertDescBy key a bs

/-- Stable descending sort by a numeric key:
    `result.sort(key=..., reverse=True)`. -/
def sortDescBy {α : Type} (key : α → ℚ) : List α → List α
  | [] => []
  | a :: l => insertDescBy key a (sortDescBy key l)

/-- The Ranking Selector pattern used by `process_traders_pnl`,
    `process_traders_value` and `get_biggest_positions`:
    `xs.sort(key=..., reverse=True); return xs[:n]`. -/
def topNBy {α : Type} (key : α → ℚ) (n : ℕ) (l : List α) : List α :=
  (sortDescBy key l).take n

/-- Function `get_bucket_size` (fetch_hyperliquid.py lines 158-166). -/
def get_bucket_size (coin : String) (price : ℚ) : ℚ :=
  if coin = "BTC" then 1000
  else if coin = "ETH" then 50
  else if coin = "SOL" then 5
  else if coin = "BNB" then 10
  else if 10000 ≤ price then 500
  else if 1000 ≤ price then 100
  else if 100 ≤ price then 10
  else if 10 ≤ price then 1
  else if 1 ≤ price then 1 / 10
  else 1 / 100

/-- The four leverage tiers, the keys `'10x'/'25x'/'50x'/'100x'`. -/
inductive Cat where
  | c10
  | c25
  | c50
  | c100
deriving DecidableEq, Repr

/-- Function `get_lev_cat` (fetch_hyperliquid.py lines 168-172). -/
def get_lev_cat (lev : ℚ) : Cat :=
  if 100 ≤ lev then Cat.c100
  else if 50 ≤ lev then Cat.c50
  else if 25 ≤ lev then Cat.c25
  else Cat.c10

/-- Python `round(x, 2)`.  Mathlib `round` rounds half up whereas Python
    rounds half to even, but inside `build_liq_map` it is only ever applied
    to exact integer multiples of 1/100, where both are the identity. -/
def round2 (q : ℚ) : ℚ :=
  ((round (q * 100) : ℤ) : ℚ) / 100

/-- The bucket key `round(math.floor(liq / bucket_size) * bucket_size, 2)`. -/
def bkey (w : ℚ) (liq : ℚ) : ℚ :=
  round2 ((⌊liq / w⌋ : ℚ) * w)

/-- A position that survived the valid-liquidation-price filter of
    `build_liq_map` lines 178-187: `{**p, 'liquidationPx': float,
    'traderAddress': addr}`; the fields the rest of the function never
    reads (`size`, `entryPx`, `unrealizedPnl`) are omitted. -/
structure LiqPosition where
  coin : String
  direction : Dir
  leverage : ℚ
  positionValue : ℚ
  liq : ℚ
  traderAddress : String
deriving DecidableEq, Repr

/-- The flattened valid-liquidation positions in traversal order
    (fetch_hyperliquid.py lines 178-187): keep a position iff its
    `liquidationPx` parses and `0 < liq ∧ liq ≤ 1e12` — the code skips on
    `liq <= 0 or liq > 1e12`. -/
def validPositions (traders : List Trader) : List LiqPosition :=
  traders.flatMap (fun t =>
    t.positions.filterMap (fun p =>
      match p.liquidationPx with
      | none => none
      | some q =>
        if 0 < q ∧ q ≤ (10 : ℚ) ^ 12 then
          some { coin := p.coin, direction := p.direction,
                 leverage := p.leverage, positionValue := p.positionValue,
                 liq := q, traderAddress := t.address }
        else none))

/-- One output bucket `{'price': k, '10x': _, '25x': _, '50x': _, '100x': _}`;
    the four tier fields are always present (zero-filled when empty). -/
structure Bucket where
  price : ℚ
  t10 : ℚ
  t25 : ℚ
  t50 : ℚ
  t100 : ℚ
deriving DecidableEq, Repr

/-- Python `sum(v.values())` over the four tier sums of a bucket. -/
def Bucket.total (b : Bucket) : ℚ :=
  b.t10 + b.t25 + b.t50 + b.t100

/-- The accumulated value of one `(bucket key, tier)` cell: the sum of
    `positionValue` over the side's in-range positions landing there. -/
def bval (w : ℚ) (ps : List LiqPosition) (k : ℚ) (c : Cat) : ℚ :=
  ((ps.filter (fun p => bkey w p.liq = k ∧ get_lev_cat p.leverage = c)).map
    (fun p => p.positionValue)).sum

/-- The full bucket record at key `k` for one side's in-range positions. -/
def bucketAt (w : ℚ) (ps : List LiqPosition) (k : ℚ) : Bucket :=
  { price := k
    t10 := bval w ps k Cat.c10
    t25 := bval w ps k Cat.c25
    t50 := bval w ps k Cat.c50
    t100 := bval w ps k Cat.c100 }

/-- One side's output list (fetch_hyperliquid.py lines 218-221): the
    `defaultdict` keyed in first-touch order, iterated via
    `sorted(...)`, dropping buckets with `sum(v.values()) <= 0`. -/
def sideList (w : ℚ) (ps : List LiqPosition) : List Bucket :=
  ((sortAsc (firstDedup (ps.map (fun p => bkey w p.liq)))).map
    (bucketAt w ps)).filter (fun b => 0 < b.total)

/-- The per-coin record of the liquidation map output. -/
structure CoinLiq where
  currentPrice : ℚ
  longLiquidations : List Bucket
  shortLiquidations : List Bucket
deriving DecidableEq, Repr

/-- The body of the per-coin loop of `build_liq_map`
    (fetch_hyperliquid.py lines 190-228).  The range test keeps a position
    iff `min_p ≤ liq ∧ liq ≤ max_p`, the complement of the code's skip
    condition `liq < min_p or liq > max_p`. -/
def coinEntry (vps : List LiqPosition) (prices : PriceTable) (c : String) :
    Option (String × CoinLiq) :=
  let ps := vps.filter (fun p => p.coin = c)
  if ps.length < 2 then none
  else
    let curr := lookupPrice prices c
    if curr ≤ 0 then none
    else
      let w := get_bucket_size c curr
      let lo := curr * (1 / 2)
      let hi := curr * (3 / 2)
      let inR := ps.filter (fun p => lo ≤ p.liq ∧ p.liq ≤ hi)
      let ll := sideList w (inR.filter (fun p => p.direction = Dir.long))
      let sl := sideList w (inR.filter (fun p => ¬ p.direction = Dir.long))
      if ll = [] ∧ sl = [] then none
      else some (c, { currentPrice := curr, longLiquidations := ll,
                      shortLiquidations := sl })

/-- Function `build_liq_map` (fetch_hyperliquid.py lines 174-231), as the ordered
    association list it serializes to: coins are visited in first-valid-
    occurrence order (`liq_by_coin.items()` of an insertion-ordered dict). -/
def build_liq_map (traders : List Trader) (prices : PriceTable) :
    List (String × CoinLiq) :=
  let vps := validPositions traders
  (firstDedup (vps.map (fun p => p.coin))).filterMap (coinEntry vps prices)

/-- One record of the Coin Aggregator output
    `{'coin': c, 'long': _, 'short': _, 'longSize': _, 'shortSize': _,
      'total': long + short}`. -/
structure CoinAgg where
  coin : String
  long : ℚ
  short : ℚ
  longSize : ℚ
  shortSize : ℚ
  total : ℚ
deriving DecidableEq, Repr

/-- The aggregate record of one coin over its positions; the Python code
    accumulates these sums in one pass over a `defaultdict`. -/
def mkAgg (c : String) (ps : List Position) : CoinAgg :=
  let longs := ps.filter (fun p => p.direction = Dir.long)
  let shorts := ps.filter (fun p => ¬ p.direction = Dir.long)
  let lv := (longs.map (fun p => p.positionValue)).sum
  let sv := (shorts.map (fun p => p.positionValue)).sum
  { coin := c, long := lv, short := sv,
    longSize := (longs.map (fun p => p.size)).sum,
    shortSize := (shorts.map (fun p => p.size)).sum,
    total := lv + sv }

/-- All positions of a trader cohort in traversal order. -/
def allPositions (traders : List Trader) : List Position :=
  traders.flatMap (fun t => t.positions)

/-- Function `aggregate_positions` (fetch_hyperliquid.py lines 142-156): per-coin
    sums in coin first-occurrence order, stable-sorted by `total`
    descending, truncated to 25. -/
def aggregate_positions (traders : List Trader) : List CoinAgg :=
  let ps := allPositions traders
  let recs := (firstDedup (ps.map (fun p => p.coin))).map
    (fun c => mkAgg c (ps.filter (fun p => p.coin = c)))
  (sortDescBy (fun r => r.total) recs).take 25

/-- Function `get_biggest_positions` (fetch_hyperliquid.py lines 233-241), with the
    trader-info annotation reduced to the attached address: flatten the
    address -> positions map, sort by `positionValue` descending, take `n`. -/
def get_biggest_positions (posMap : List (String × List Position)) (n : ℕ) :
    List (String × Position) :=
  topNBy (fun x => x.2.positionValue) n
    (posMap.flatMap (fun a => a.2.map (fun p => (a.1, p))))

/-- A raw Hyperliquid asset position as read by `fetch_positions`
    (fetch_hyperliquid.py lines 50-65).  `leverageValue` is
    `p['leverage'].get('value')`, with `none` for a missing or falsy value
    (the code then uses 0). -/
structure HLRawPos where
  szi : ℚ
  coin : String
  entryPx : String
  leverageValue : Option ℚ
  positionValue : ℚ
  unrealizedPnl : ℚ
  liquidationPx : Option ℚ
deriving DecidableEq, Repr

/-- The normalization loop of `fetch_positions` (fetch_hyperliquid.py lines
    50-65): skip `szi == 0`; `lev_val = float(lev.get('value', 0)) if
    lev.get('value') else 0` becomes `leverageValue.getD 0`. -/
def hl_fetch_positions (raw : List HLRawPos) : List Position :=
  raw.filterMap (fun p =>
    if p.szi = 0 then none
    else some
      { coin := p.coin
        direction := if (0 : ℚ) < p.szi then Dir.long else Dir.short
        size := abs p.szi
        entryPx := p.entryPx
        leverage := p.leverageValue.getD 0
        positionValue := p.positionValue
        unrealizedPnl := p.unrealizedPnl
        liquidationPx := p.liquidationPx })

/-- A raw Drift perp position as read by `fetch_user_positions`
    (fetch_drift.py lines 171-208), fields already merged through the
    `safe_float(... or ...)` fallback chains (default 0).  The coin-name
    munging (the `-PERP` strip and the `MARKET_i` fallback) is elided:
    `coin` stands for the resulting symbol. -/
structure DriftRawPos where
  baseAssetAmount : ℚ
  coin : String
  entryPrice : ℚ
  quoteEntryAmount : ℚ
  unrealizedPnl : ℚ
  leverage : ℚ
  liquidationPrice : ℚ
deriving DecidableEq, Repr

/-- A normalized Drift position (fetch_drift.py lines 210-219);
    `liquidationPx` is `str(liq) if liq > 0 else ''`, modelled as `Option ℚ`. -/
structure DriftPos where
  coin : String
  direction : Dir
  size : ℚ
  entryPx : ℚ
  leverage : ℚ
  positionValue : ℚ
  unrealizedPnl : ℚ
  liquidationPx : Option ℚ
deriving DecidableEq, Repr

/-- The per-record transform of `fetch_user_positions`
    (fetch_drift.py lines 171-219): raw-precision rescalings, the
    `positionValue` fallback, and the leverage placeholder
    `if leverage_val == 0 and position_value > 0: leverage_val = 5`. -/
def drift_normalize (p : DriftRawPos) : Option DriftPos :=
  if p.baseAssetAmount = 0 then none
  else
    let base := if (10 : ℚ) ^ 12 < |p.baseAssetAmount| then
      p.baseAssetAmount / 10 ^ 9 else p.baseAssetAmount
    let entry := if (10 : ℚ) ^ 10 < p.entryPrice then
      p.entryPrice / 10 ^ 6 else p.entryPrice
    let quote := if (10 : ℚ) ^ 10 < |p.quoteEntryAmount| then
      p.quoteEntryAmount / 10 ^ 6 else p.quoteEntryAmount
    let pv := if 0 < entry then |base * entry| else |quote|
    let upnl := if (10 : ℚ) ^ 10 < |p.unrealizedPnl| then
      p.unrealizedPnl / 10 ^ 6 else p.unrealizedPnl
    let lev := if p.leverage = 0 ∧ 0 < pv then 5 else p.leverage
    let liq := if (10 : ℚ) ^ 10 < p.liquidationPrice then
      p.liquidationPrice / 10 ^ 6 else p.liquidationPrice
    some
      { coin := p.coin
        direction := if (0 : ℚ) < base then Dir.long else Dir.short
        size := abs base
        entryPx := entry
        leverage := lev
        positionValue := pv
        unrealizedPnl := upnl
        liquidationPx := if 0 < liq then some liq else none }

/-- Function `fetch_user_positions` over a batch of raw records. -/
def drift_fetch_positions (raw : List DriftRawPos) : List DriftPos :=
  raw.filterMap drift_normalize

/- ---------- concrete inputs used by witnesses and counterexamples ------- -/

/-- The spec's §8 worked example: two long BTC positions. -/
def exT1 : List Trader :=
  [{ address := "t1", positions :=
      [{ coin := "BTC", direction := Dir.long, size := 1 / 100,
         entryPx := "0", leverage := 12, positionValue := 1000,
         unrealizedPnl := 0, liquidationPx := some 98000 },
       { coin := "BTC", direction := Dir.long, size := 1 / 200,
         entryPx := "0", leverage := 30, positionValue := 500,
         unrealizedPnl := 0, liquidationPx := some 97500 }] }]

/-- The spec example's price table `{BTC: 100000}`. -/
def exP1 : PriceTable := [("BTC", 100000)]

/-- The liquidation-map entry the code actually produces at the worked
    example input `exT1` / `exP1`. -/
def exEntry1 : CoinLiq :=
  { currentPrice := 100000
    longLiquidations :=
      [{ price := 97000, t10 := 0, t25 := 500, t50 := 0, t100 := 0 },
       { price := 98000, t10 := 1000, t25 := 0, t50 := 0, t100 := 0 }]
    shortLiquidations := [] }

/-- The single long bucket the spec's worked example claims: both positions
    merged at price 97000. -/
def exEntryClaim1 : CoinLiq :=
  { currentPrice := 100000
    longLiquidations :=
      [{ price := 97000, t10 := 1000, t25 := 500, t50 := 0, t100 := 0 }]
    shortLiquidations := [] }

/-- A coin not in the fixed bucket table, price 150 (width 10), with two
    long positions whose liquidation price 76 sits just above the range
    floor 75; their bucket floors to 70, below `0.5 · 150`. -/
def exT2 : List Trader :=
  [{ address := "t2", positions :=
      [{ coin := "AAA", direction := Dir.long, size := 1, entryPx := "0",
         leverage := 10, positionValue := 100, unrealizedPnl := 0,
         liquidationPx := some 76 },
       { coin := "AAA", direction := Dir.long, size := 2, entryPx := "0",
         leverage := 10, positionValue := 50, unrealizedPnl := 0,
         liquidationPx := some 76 }] }]

/-- Price table for the range counterexample. -/
def exP2 : PriceTable := [("AAA", 150)]

/-- The liquidation-map entry produced at `exT2` / `exP2`: its single long
    bucket sits at price 70, below half the current price 150. -/
def exEntry2 : CoinLiq :=
  { currentPrice := 150
    longLiquidations :=
      [{ price := 70, t10 := 150, t25 := 0, t50 := 0, t100 := 0 }]
    shortLiquidations := [] }

/-- A coin with exactly one valid liquidation point. -/
def exT3 : List Trader :=
  [{ address := "t3", positions :=
      [{ coin := "ZZZ", direction := Dir.long, size := 3, entryPx := "0",
         leverage := 10, positionValue := 100, unrealizedPnl := 0,
         liquidationPx := some 5 }] }]

/-- Price table giving `ZZZ` a perfectly good price. -/
def exP3 : PriceTable := [("ZZZ", 10)]

/-- A coin with two valid liquidation points but no price table entry. -/
def exT9 : List Trader :=
  [{ address := "t9", positions :=
      [{ coin := "NOP", direction := Dir.long, size := 1, entryPx := "0",
         leverage := 10, positionValue := 100, unrealizedPnl := 0,
         liquidationPx := some 9 },
       { coin := "NOP", direction := Dir.long, size := 1, entryPx := "0",
         leverage := 10, positionValue := 200, unrealizedPnl := 0,
         liquidationPx := some (19 / 2) }] }]

/-- The empty price table. -/
def exP9 : PriceTable := []

/-- A raw Hyperliquid position whose `leverage` dict has no usable value. -/
def exHL4 : HLRawPos :=
  { szi := 1, coin := "BTC", entryPx := "100", leverageValue := none,
    positionValue := 1000, unrealizedPnl := 0, liquidationPx := none }

/-- A raw Drift position reporting no leverage but a positive notional. -/
def exDrift4 : DriftRawPos :=
  { baseAssetAmount := 1, coin := "SOL", entryPrice := 10,
    quoteEntryAmount := 0, unrealizedPnl := 0, leverage := 0,
    liquidationPrice := 0 }

/-- A three-element list for the Ranking Selector witness. -/
def exRank : List ℚ := [1, 3, 2]

/- ------------------------- helper lemmas ------------------------------- -/

theorem mem_firstDedupAux {α : Type} [DecidableEq α] (x : α) :
    ∀ (l seen : List α), x ∈ firstDedupAux seen l ↔ x ∈ l ∧ x ∉ seen := by
  intro l
  induction l with
  | nil => intro seen; simp [firstDedupAux]
  | cons a l ih =>
    intro seen
    by_cases ha : a ∈ seen
    · rw [firstDedupAux, if_pos ha, ih]
      simp only [List.mem_cons]
      constructor
      · rintro ⟨h1, h2⟩
        exact ⟨Or.inr h1, h2⟩
      · rintro ⟨h1 | h1, h2⟩
        · exact absurd (h1 ▸ ha) h2
        · exact ⟨h1, h2⟩
    · rw [firstDedupAux, if_neg ha]
      simp only [List.mem_cons, ih]
      by_cases hxa : x = a
      · subst hxa
        simp [ha]
      · simp [hxa]

theorem nodup_firstDedupAux {α : Type} [DecidableEq α] :
    ∀ (l seen : List α), (firstDedupAux seen l).Nodup := by
  intro l
  induction l with
  | nil => intro seen; simp [firstDedupAux]
  | cons a l ih =>
    intro seen
    by_cases ha : a ∈ seen
    · rw [firstDedupAux, if_pos ha]
      exact ih seen
    · rw [firstDedupAux, if_neg ha]
      refine List.nodup_cons.2 ⟨fun hmem => ?_, ih _⟩
      exact ((mem_firstDedupAux a l (a :: seen)).1 hmem).2 (List.mem_cons_self a seen)

theorem mem_firstDedup {α : Type} [DecidableEq α] {x : α} {l : List α} :
    x ∈ firstDedup l ↔ x ∈ l := by
  simp [firstDedup, mem_firstDedupAux]

theorem nodup_firstDedup {α : Type} [DecidableEq α] (l : List α) :
    (firstDedup l).Nodup :=
  nodup_firstDedupAux l []

theorem perm_insertAsc (a : ℚ) :
    ∀ l : List ℚ, List.Perm (insertAsc a l) (a :: l) := by
  intro l
  induction l with
  | nil => simp [insertAsc]
  | cons b bs ih =>
    by_cases h : a ≤ b
    · rw [insertAsc, if_pos h]
    · rw [insertAsc, if_neg h]
      exact (List.Perm.cons b ih).trans (List.Perm.swap a b bs)

theorem perm_sortAsc : ∀ l : List ℚ, List.Perm (sortAsc l) l := by
  intro l
  induction l with
  | nil => simp [sortAsc]
  | cons a l ih =>
    exact (perm_insertAsc a (sortAsc l)).trans (List.Perm.cons a ih)

theorem mem_insertAsc {a x : ℚ} {l : List ℚ} :
    x ∈ insertAsc a l ↔ x = a ∨ x ∈ l := by
  rw [(perm_insertAsc a l).mem_iff]
  simp

theorem pairwise_insertAsc (a : ℚ) :
    ∀ l : List ℚ, l.Pairwise (· ≤ ·) → (insertAsc a l).Pairwise (· ≤ ·) := by
  intro l
  induction l with
  | nil => intro _; simp [insertAsc]
  | cons b bs ih =>
    intro hp
    rcases List.pairwise_cons.1 hp with ⟨hb, hbs⟩
    by_cases h : a ≤ b
    · rw [insertAsc, if_pos h]
      refine List.pairwise_cons.2 ⟨?_, hp⟩
      intro x hx
      rcases List.mem_cons.1 hx with rfl | hx
      · exact h
      · exact le_trans h (hb x hx)
    · rw [insertAsc, if_neg h]
      refine List.pairwise_cons.2 ⟨?_, ih hbs⟩
      intro x hx
      rcases mem_insertAsc.1 hx with rfl | hx
      · exact le_of_not_le h
      · exact hb x hx

theorem sorted_sortAsc : ∀ l : List ℚ, (sortAsc l).Pairwise (· ≤ ·) := by
  intro l
  induction l with
  | nil => simp [sortAsc]
  | cons a l ih => exact pairwise_insertAsc a (sortAsc l) ih

theorem perm_insertDescBy {α : Type} (key : α → ℚ) (a : α) :
    ∀ l : List α, List.Perm (insertDescBy key a l) (a :: l) := by
  intro l
  induction l with
  | nil => simp [insertDescBy]
  | cons b bs ih =>
    by_cases h : key b ≤ key a
    · rw [insertDescBy, if_pos h]
    · rw [insertDescBy, if_neg h]
      exact (List.Perm.cons b ih).trans (List.Perm.swap a b bs)

theorem perm_sortDescBy {α : Type} (key : α → ℚ) :
    ∀ l : List α, List.Perm (sortDescBy key l) l := by
  intro l
  induction l with
  | nil => simp [sortDescBy]
  | cons a l ih =>
    exact (perm_insertDescBy key a (sortDescBy key l)).trans (List.Perm.cons a ih)

theorem mem_insertDescBy {α : Type} {key : α → ℚ} {a x : α} {l : List α} :
    x ∈ insertDescBy key a l ↔ x = a ∨ x ∈ l := by
  rw [(perm_insertDescBy key a l).mem_iff]
  simp

theorem pairwise_insertDescBy {α : Type} (key : α → ℚ) (a : α) :
    ∀ l : List α, l.Pairwise (fun x y => key y ≤ key x) →
      (insertDescBy key a l).Pairwise (fun x y => key y ≤ key x) := by
  intro l
  induction l with
  | nil => intro _; simp [insertDescBy]
  | cons b bs ih =>
    intro hp
    rcases List.pairwise_cons.1 hp with ⟨hb, hbs⟩
    by_cases h : key b ≤ key a
    · rw [insertDescBy, if_pos h]
      refine List.pairwise_cons.2 ⟨?_, hp⟩
      intro x hx
      rcases List.mem_cons.1 hx with rfl | hx
      · exact h
      · exact le_trans (hb x hx) h
    · rw [insertDescBy, if_neg h]
      refine List.pairwise_cons.2 ⟨?_, ih hbs⟩
      intro x hx
      rcases mem_insertDescBy.1 hx with rfl | hx
      · exact le_of_not_le h
      · exact hb x hx

theorem sorted_sortDescBy {α : Type} (key : α → ℚ) :
    ∀ l : List α, (sortDescBy key l).Pairwise (fun x y => key y ≤ key x) := by
  intro l
  induction l with
  | nil => simp [sortDescBy]
  | cons a l ih => exact pairwise_insertDescBy key a (sortDescBy key l) ih

theorem filter_insertDescBy {α : Type} (key : α → ℚ) (a : α) (k : ℚ) :
    ∀ l : List α,
      (insertDescBy key a l).filter (fun x => key x = k) =
        if key a = k then a :: l.filter (fun x => key x = k)
        else l.filter (fun x => key x = k) := by
  intro l
  induction l with
  | nil =>
    by_cases hk : key a = k <;> simp [insertDescBy, hk]
  | cons b bs ih =>
    by_cases h : key b ≤ key a
    · rw [insertDescBy, if_pos h]
      by_cases hk : key a = k <;> simp [List.filter_cons, hk]
    · rw [insertDescBy, if_neg h]
      by_cases hbk : key b = k
      · by_cases hk : key a = k
        · exact absurd (le_of_eq (hbk.trans hk.symm)) h
        · simp [List.filter_cons, hbk, ih, hk]
      · simp [List.filter_cons, hbk, ih]

theorem filter_sortDescBy {α : Type} (key : α → ℚ) (k : ℚ) :
    ∀ l : List α,
      (sortDescBy key l).filter (fun x => key x = k) =
        l.filter (fun x => key x = k) := by
  intro l
  induction l with
  | nil => simp [sortDescBy]
  | cons a l ih =>
    rw [sortDescBy, filter_insertDescBy]
    by_cases hk : key a = k <;> simp [List.filter_cons, hk, ih]

theorem sum_map_filter_ne_add {α : Type} (key : α → ℚ) (k : ℚ) (v : α → ℚ) :
    ∀ l : List α,
      ((l.filter (fun x => key x = k)).map v).sum +
          ((l.filter (fun x => key x ≠ k)).map v).sum =
        (l.map v).sum := by
  intro l
  induction l with
  | nil => simp
  | cons a l ih =>
    by_cases h : key a = k
    · have e1 : (a :: l).filter (fun x => key x = k) =
          a :: l.filter (fun x => key x = k) := by
        simp [List.filter_cons, h]
      have e2 : (a :: l).filter (fun x => key x ≠ k) =
          l.filter (fun x => key x ≠ k) := by
        simp [List.filter_cons, h]
      rw [e1, e2, List.map_cons, List.sum_cons, List.map_cons, List.sum_cons,
        add_assoc, ih]
    · have e1 : (a :: l).filter (fun x => key x = k) =
          l.filter (fun x => key x = k) := by
        simp [List.filter_cons, h]
      have e2 : (a :: l).filter (fun x => key x ≠ k) =
          a :: l.filter (fun x => key x ≠ k) := by
        simp [List.filter_cons, h]
      rw [e1, e2, List.map_cons, List.sum_cons, List.map_cons, List.sum_cons,
        add_left_comm, ih]

theorem sum_over_keys {α : Type} (key : α → ℚ) (v : α → ℚ) :
    ∀ (ks : List ℚ) (ps : List α), ks.Nodup → (∀ p ∈ ps, key p ∈ ks) →
      (ks.map (fun k => ((ps.filter (fun p => key p = k)).map v).sum)).sum =
        (ps.map v).sum := by
  intro ks
  induction ks with
  | nil =>
    intro ps _ hcov
    cases ps with
    | nil => simp
    | cons p ps => exact absurd (hcov p (List.mem_cons_self p ps)) (List.not_mem_nil _)
  | cons k ks ih =>
    intro ps hnd hcov
    rcases List.nodup_cons.1 hnd with ⟨hk, hnd'⟩
    have hrest : ∀ k' ∈ ks,
        (ps.filter (fun p => key p ≠ k)).filter (fun p => key p = k') =
          ps.filter (fun p => key p = k') := by
      intro k' hk'
      rw [List.filter_filter]
      apply List.filter_congr
      intro p _
      by_cases hpk : key p = k'
      · have hk'k : k' ≠ k := fun h => hk (h ▸ hk')
        simp [hpk, hk'k]
      · simp [hpk]
    have hcov' : ∀ p ∈ ps.filter (fun p => key p ≠ k), key p ∈ ks := by
      intro p hp
      rcases List.mem_filter.1 hp with ⟨hps, hcond⟩
      rcases List.mem_cons.1 (hcov p hps) with h | h
      · exfalso
        simp [h] at hcond
      · exact h
    rw [List.map_cons, List.sum_cons]
    have hmap :
        (ks.map (fun k' => ((ps.filter (fun p => key p = k')).map v).sum)) =
          (ks.map (fun k' =>
            (((ps.filter (fun p => key p ≠ k)).filter (fun p => key p = k')).map
              v).sum)) := by
      apply List.map_congr_left
      intro k' hk'
      rw [hrest k' hk']
    rw [hmap, ih _ hnd' hcov', sum_map_filter_ne_add key k v ps]

theorem round2_int_mul (n m : ℤ) (w : ℚ) (h : w * 100 = (m : ℚ)) :
    round2 ((n : ℚ) * w) = (n : ℚ) * w := by
  have h1 : ((n : ℚ) * w) * 100 = ((n * m : ℤ) : ℚ) := by
    push_cast
    rw [mul_assoc, h]
  rw [round2, h1, round_intCast]
  have h100 : (100 : ℚ) ≠ 0 := by norm_num
  have h2 : w = (m : ℚ) / 100 := by
    field_simp
    linarith
  push_cast
  rw [h2]
  ring

theorem bucket_size_pos (c : String) (p : ℚ) : 0 < get_bucket_size c p := by
  rw [get_bucket_size]
  split_ifs <;> norm_num

theorem bucket_size_mul_100_int (c : String) (p : ℚ) :
    ∃ m : ℤ, get_bucket_size c p * 100 = (m : ℚ) := by
  rw [get_bucket_size]
  split_ifs
  · exact ⟨100000, by norm_num⟩
  · exact ⟨5000, by norm_num⟩
  · exact ⟨500, by norm_num⟩
  · exact ⟨1000, by norm_num⟩
  · exact ⟨50000, by norm_num⟩
  · exact ⟨10000, by norm_num⟩
  · exact ⟨1000, by norm_num⟩
  · exact ⟨100, by norm_num⟩
  · exact ⟨10, by norm_num⟩
  · exact ⟨1, by norm_num⟩

theorem bkey_bucket_size (c : String) (p liq : ℚ) :
    bkey (get_bucket_size c p) liq =
      (⌊liq / get_bucket_size c p⌋ : ℚ) * get_bucket_size c p := by
  rcases bucket_size_mul_100_int c p with ⟨m, hm⟩
  exact round2_int_mul _ m _ hm

theorem floor_mul_le {w liq hi : ℚ} (hw : 0 < w) (h2 : liq ≤ hi) :
    (⌊liq / w⌋ : ℚ) * w ≤ hi := by
  have hfl : (⌊liq / w⌋ : ℚ) ≤ liq / w := Int.floor_le _
  have := mul_le_mul_of_nonneg_right hfl (le_of_lt hw)
  rw [div_mul_cancel₀ _ (ne_of_gt hw)] at this
  exact le_trans this h2

theorem lt_floor_mul {w liq lo : ℚ} (hw : 0 < w) (h1 : lo ≤ liq) :
    lo - w ≤ (⌊liq / w⌋ : ℚ) * w := by
  have hfl : liq / w - 1 < (⌊liq / w⌋ : ℚ) := Int.sub_one_lt_floor _
  have := mul_lt_mul_of_pos_right hfl hw
  rw [sub_mul, one_mul, div_mul_cancel₀ _ (ne_of_gt hw)] at this
  have hlo : lo - w ≤ liq - w := by linarith
  linarith

theorem coinEntry_eq_some {vps : List LiqPosition} {prices : PriceTable}
    {c' c : String} {entry : CoinLiq}
    (h : coinEntry vps prices c' = some (c, entry)) :
    c' = c ∧
      2 ≤ (vps.filter (fun p => p.coin = c')).length ∧
      0 < lookupPrice prices c' ∧
      entry =
        { currentPrice := lookupPrice prices c'
          longLiquidations :=
            sideList (get_bucket_size c' (lookupPrice prices c'))
              (((vps.filter (fun p => p.coin = c')).filter (fun p =>
                  lookupPrice prices c' * (1 / 2) ≤ p.liq ∧
                    p.liq ≤ lookupPrice prices c' * (3 / 2))).filter
                (fun p => p.direction = Dir.long))
          shortLiquidations :=
            sideList (get_bucket_size c' (lookupPrice prices c'))
              (((vps.filter (fun p => p.coin = c')).filter (fun p =>
                  lookupPrice prices c' * (1 / 2) ≤ p.liq ∧
                    p.liq ≤ lookupPrice prices c' * (3 / 2))).filter
                (fun p => ¬ p.direction = Dir.long)) } := by
  simp only [coinEntry] at h
  split_ifs at h with h1 h2 h3
  rw [Option.some.injEq, Prod.mk.injEq] at h
  refine ⟨h.1, by omega, lt_of_not_le h2, h.2.symm⟩

theorem mem_build_liq_map {traders : List Trader} {prices : PriceTable}
    {c : String} {entry : CoinLiq}
    (h : (c, entry) ∈ build_liq_map traders prices) :
    coinEntry (validPositions traders) prices c = some (c, entry) := by
  rw [build_liq_map] at h
  rcases List.mem_filterMap.1 h with ⟨a, _, ha⟩
  have := (coinEntry_eq_some ha).1
  subst this
  exact ha

theorem mem_sideList_price {w : ℚ} {ps : List LiqPosition} {b : Bucket}
    (h : b ∈ sideList w ps) : ∃ p ∈ ps, b.price = bkey w p.liq := by
  rw [sideList] at h
  have hmem := (List.mem_filter.1 h).1
  rcases List.mem_map.1 hmem with ⟨k, hk, rfl⟩
  have hk' : k ∈ firstDedup (ps.map (fun p => bkey w p.liq)) :=
    (perm_sortAsc _).subset hk
  have hk'' : k ∈ ps.map (fun p => bkey w p.liq) := mem_firstDedup.1 hk'
  rcases List.mem_map.1 hk'' with ⟨p, hp, rfl⟩
  exact ⟨p, hp, rfl⟩

theorem sideList_total_pos {w : ℚ} {ps : List LiqPosition} {b : Bucket}
    (h : b ∈ sideList w ps) : 0 < b.total := by
  rw [sideList] at h
  have := (List.mem_filter.1 h).2
  simpa using this

theorem sideList_sorted (w : ℚ) (ps : List LiqPosition) :
    (sideList w ps).Pairwise (fun a b => a.price ≤ b.price) := by
  rw [sideList]
  apply List.Pairwise.filter
  rw [List.pairwise_map]
  have := sorted_sortAsc (firstDedup (ps.map (fun p => bkey w p.liq)))
  exact this.imp (fun hxy => hxy)

theorem bval_cons (w k : ℚ) (c : Cat) (p : LiqPosition) (ps : List LiqPosition) :
    bval w (p :: ps) k c =
      (if bkey w p.liq = k ∧ get_lev_cat p.leverage = c then p.positionValue
        else 0) + bval w ps k c := by
  rw [bval, bval, List.filter_cons]
  by_cases h : bkey w p.liq = k ∧ get_lev_cat p.leverage = c
  · rw [if_pos (by simpa using h), if_pos h, List.map_cons, List.sum_cons]
  · rw [if_neg (by simpa using h), if_neg h, zero_add]

theorem bval_total (w k : ℚ) :
    ∀ ps : List LiqPosition,
      bval w ps k Cat.c10 + bval w ps k Cat.c25 + bval w ps k Cat.c50 +
          bval w ps k Cat.c100 =
        ((ps.filter (fun p => bkey w p.liq = k)).map
          (fun p => p.positionValue)).sum := by
  intro ps
  induction ps with
  | nil => simp [bval]
  | cons p ps ih =>
    rw [bval_cons, bval_cons, bval_cons, bval_cons, List.filter_cons]
    by_cases hk : bkey w p.liq = k
    · rw [if_pos (by simpa using hk : decide (bkey w p.liq = k) = true),
        List.map_cons, List.sum_cons]
      cases hc : get_lev_cat p.leverage with
      | c10 =>
        rw [if_pos ⟨hk, rfl⟩, if_neg (by simp), if_neg (by simp),
          if_neg (by simp)]
        linarith [ih]
      | c25 =>
        rw [if_neg (by simp), if_pos ⟨hk, rfl⟩, if_neg (by simp),
          if_neg (by simp)]
        linarith [ih]
      | c50 =>
        rw [if_neg (by simp), if_neg (by simp), if_pos ⟨hk, rfl⟩,
          if_neg (by simp)]
        linarith [ih]
      | c100 =>
        rw [if_neg (by simp), if_neg (by simp), if_neg (by simp),
          if_pos ⟨hk, rfl⟩]
        linarith [ih]
    · rw [if_neg (by simpa using hk : ¬ decide (bkey w p.liq = k) = true),
        if_neg (fun hcon => hk hcon.1), if_neg (fun hcon => hk hcon.1),
        if_neg (fun hcon => hk hcon.1), if_neg (fun hcon => hk hcon.1)]
      simp only [zero_add]
      exact ih

theorem total_bucketAt (w : ℚ) (ps : List LiqPosition) (k : ℚ) :
    (bucketAt w ps k).total =
      ((ps.filter (fun p => bkey w p.liq = k)).map
        (fun p => p.positionValue)).sum := by
  rw [bucketAt, Bucket.total]
  exact bval_total w k ps

theorem bucketAt_total_nonneg {w : ℚ} {ps : List LiqPosition} (k : ℚ)
    (h : ∀ p ∈ ps, 0 ≤ p.positionValue) : 0 ≤ (bucketAt w ps k).total := by
  rw [total_bucketAt]
  apply List.sum_nonneg
  intro x hx
  rcases List.mem_map.1 hx with ⟨p, hp, rfl⟩
  exact h p (List.mem_filter.1 hp).1

theorem sum_filter_pos_total {l : List Bucket} (h : ∀ b ∈ l, 0 ≤ b.total) :
    ((l.filter (fun b => 0 < b.total)).map Bucket.total).sum =
      (l.map Bucket.total).sum := by
  induction l with
  | nil => simp
  | cons b l ih =>
    have hb := h b (List.mem_cons_self b l)
    have hl : ∀ x ∈ l, 0 ≤ x.total := fun x hx => h x (List.mem_cons_of_mem b hx)
    rw [List.filter_cons]
    by_cases hpos : 0 < b.total
    · rw [if_pos (by simpa using hpos), List.map_cons, List.sum_cons,
        List.map_cons, List.sum_cons, ih hl]
    · have hz : b.total = 0 := le_antisymm (le_of_not_lt hpos) hb
      rw [if_neg (by simpa using hpos), List.map_cons, List.sum_cons, ih hl, hz,
        zero_add]

theorem sum_sideList_total {w : ℚ} {ps : List LiqPosition}
    (h : ∀ p ∈ ps, 0 ≤ p.positionValue) :
    ((sideList w ps).map Bucket.total).sum =
      (ps.map (fun p => p.positionValue)).sum := by
  rw [sideList]
  rw [sum_filter_pos_total]
  · have hperm :
        List.Perm (sortAsc (firstDedup (ps.map (fun p => bkey w p.liq))))
          (firstDedup (ps.map (fun p => bkey w p.liq))) := perm_sortAsc _
    have hsum :
        (((sortAsc (firstDedup (ps.map (fun p => bkey w p.liq)))).map
            (bucketAt w ps)).map Bucket.total).sum =
          (((firstDedup (ps.map (fun p => bkey w p.liq))).map
            (bucketAt w ps)).map Bucket.total).sum :=
      ((hperm.map (bucketAt w ps)).map Bucket.total).sum_eq
    rw [hsum]
    rw [List.map_map]
    have hcongr :
        (firstDedup (ps.map (fun p => bkey w p.liq))).map
            (Bucket.total ∘ bucketAt w ps) =
          (firstDedup (ps.map (fun p => bkey w p.liq))).map
            (fun k => ((ps.filter (fun p => bkey w p.liq = k)).map
              (fun p => p.positionValue)).sum) := by
      apply List.map_congr_left
      intro k _
      exact total_bucketAt w ps k
    rw [hcongr]
    apply sum_over_keys
    · exact nodup_firstDedup _
    · intro p hp
      exact mem_firstDedup.2 (List.mem_map_of_mem _ hp)
  · intro b hb
    rcases List.mem_map.1 hb with ⟨k, _, rfl⟩
    exact bucketAt_total_nonneg k h

theorem sum_map_filter_prop_add {α : Type} (P : α → Prop) [DecidablePred P]
    (v : α → ℚ) :
    ∀ l : List α,
      ((l.filter (fun x => P x)).map v).sum +
          ((l.filter (fun x => ¬ P x)).map v).sum =
        (l.map v).sum := by
  intro l
  induction l with
  | nil => simp
  | cons a l ih =>
    by_cases h : P a
    · have e1 : (a :: l).filter (fun x => P x) = a :: l.filter (fun x => P x) := by
        simp [List.filter_cons, h]
      have e2 : (a :: l).filter (fun x => ¬ P x) = l.filter (fun x => ¬ P x) := by
        simp [List.filter_cons, h]
      rw [e1, e2, List.map_cons, List.sum_cons, List.map_cons, List.sum_cons,
        add_assoc, ih]
    · have e1 : (a :: l).filter (fun x => P x) = l.filter (fun x => P x) := by
        simp [List.filter_cons, h]
      have e2 : (a :: l).filter (fun x => ¬ P x) =
          a :: l.filter (fun x => ¬ P x) := by
        simp [List.filter_cons, h]
      rw [e1, e2, List.map_cons, List.sum_cons, List.map_cons, List.sum_cons,
        add_left_comm, ih]

theorem mkAgg_coin (c : String) (ps : List Position) : (mkAgg c ps).coin = c :=
  rfl

theorem mkAgg_total_eq (c : String) (ps : List Position) :
    (mkAgg c ps).total = (mkAgg c ps).long + (mkAgg c ps).short :=
  rfl

theorem mkAgg_long_add_short (c : String) (ps : List Position) :
    (mkAgg c ps).long + (mkAgg c ps).short =
      (ps.map (fun p => p.positionValue)).sum := by
  rw [mkAgg]
  exact sum_map_filter_prop_add (fun p => p.direction = Dir.long)
    (fun p => p.positionValue) ps

theorem mem_aggregate_positions {traders : List Trader} {r : CoinAgg}
    (h : r ∈ aggregate_positions traders) :
    ∃ c, r = mkAgg c ((allPositions traders).filter (fun p => p.coin = c)) := by
  simp only [aggregate_positions] at h
  have h1 := List.mem_of_mem_take h
  have h2 := (perm_sortDescBy (fun r : CoinAgg => r.total) _).subset h1
  rcases List.mem_map.1 h2 with ⟨c, _, rfl⟩
  exact ⟨c, rfl⟩

theorem build_mem_fst {traders : List Trader} {prices : PriceTable}
    {e : String × CoinLiq} (h : e ∈ build_liq_map traders prices) :
    2 ≤ ((validPositions traders).filter (fun p => p.coin = e.1)).length ∧
      0 < lookupPrice prices e.1 := by
  obtain ⟨c, entry⟩ := e
  rcases coinEntry_eq_some (mem_build_liq_map h) with ⟨-, h2, h3, -⟩
  exact ⟨h2, h3⟩

theorem validPositions_value_nonneg {traders : List Trader}
    (hnn : ∀ t ∈ traders, ∀ p ∈ t.positions, 0 ≤ p.positionValue) :
    ∀ p ∈ validPositions traders, 0 ≤ p.positionValue := by
  intro p hp
  rw [validPositions] at hp
  rcases List.mem_flatMap.1 hp with ⟨t, ht, hpt⟩
  rcases List.mem_filterMap.1 hpt with ⟨q, hq, hqp⟩
  cases hmatch : q.liquidationPx with
  | none =>
    rw [hmatch] at hqp
    simp at hqp
  | some liq =>
    rw [hmatch] at hqp
    simp only at hqp
    split_ifs at hqp with hcond
    rw [Option.some.injEq] at hqp
    subst hqp
    exact hnn t ht q hq


/- --------------- concrete evaluations shared by the claims ------------- -/

theorem eval_build_exT1 : build_liq_map exT1 exP1 = [("BTC", exEntry1)] := by
  norm_num +decide [build_liq_map, validPositions, coinEntry, sideList,
    bucketAt, bval, bkey, round2, get_bucket_size, get_lev_cat, lookupPrice,
    firstDedup, firstDedupAux, sortAsc, insertAsc, exT1, exP1, exEntry1,
    Bucket.total, List.flatMap, List.filterMap, List.filter, List.find?,
    round_eq]

theorem eval_build_exT2 : build_liq_map exT2 exP2 = [("AAA", exEntry2)] := by
  norm_num +decide [build_liq_map, validPositions, coinEntry, sideList,
    bucketAt, bval, bkey, round2, get_bucket_size, get_lev_cat, lookupPrice,
    firstDedup, firstDedupAux, sortAsc, insertAsc, exT2, exP2, exEntry2,
    Bucket.total, List.flatMap, List.filterMap, List.filter, List.find?,
    round_eq]

theorem eval_build_exT3 : build_liq_map exT3 exP3 = [] := by
  with_unfolding_all decide

theorem eval_build_exT9 : build_liq_map exT9 exP9 = [] := by
  with_unfolding_all decide

theorem eval_agg_exT1 :
    aggregate_positions exT1 = [⟨"BTC", 1500, 0, 3 / 200, 0, 1500⟩] := by
  with_unfolding_all decide

theorem eval_agg_exT3 :
    aggregate_positions exT3 = [⟨"ZZZ", 100, 0, 3, 0, 100⟩] := by
  with_unfolding_all decide

theorem eval_agg_exT9 :
    aggregate_positions exT9 = [⟨"NOP", 300, 0, 2, 0, 300⟩] := by
  with_unfolding_all decide

/- ------------------------- claim theorems ------------------------------ -/

/-- C8: the Bucketizer is deterministic: running `build_liq_map` twice on the
    same (positions, PriceTable) pair produces the identical output structure
    (same coins, same bucket lists, same tier sums, in the same order).  In
    this embedding `build_liq_map` is a pure function of its two arguments —
    it reads no state besides them — so the two runs are one and the same
    value. -/
theorem build_liq_map_deterministic (traders : List Trader)
    (prices : PriceTable) :
    build_liq_map traders prices = build_liq_map traders prices :=
  rfl

/-- C5: every record in the Coin Aggregator output has `total = long + short`,
    and `long + short` equals the sum of `positionValue` over all positions
    of that coin in the input cohort. -/
theorem aggregator_total_eq_sum_positions (traders : List Trader)
    (r : CoinAgg) (h : r ∈ aggregate_positions traders) :
    r.total = r.long + r.short ∧
      r.long + r.short =
        (((allPositions traders).filter (fun p => p.coin = r.coin)).map
          (fun p => p.positionValue)).sum := by
  rcases mem_aggregate_positions h with ⟨c, rfl⟩
  refine ⟨mkAgg_total_eq c _, ?_⟩
  rw [mkAgg_coin, mkAgg_long_add_short]

/-- Witness for C5 at the worked example input: the BTC record sums the two
    position values 1000 and 500. -/
theorem aggregator_total_eq_sum_positions_witness :
    (⟨"BTC", 1500, 0, 3 / 200, 0, 1500⟩ : CoinAgg) ∈ aggregate_positions exT1 ∧
      ((⟨"BTC", 1500, 0, 3 / 200, 0, 1500⟩ : CoinAgg).total =
          (⟨"BTC", 1500, 0, 3 / 200, 0, 1500⟩ : CoinAgg).long +
            (⟨"BTC", 1500, 0, 3 / 200, 0, 1500⟩ : CoinAgg).short ∧
        (⟨"BTC", 1500, 0, 3 / 200, 0, 1500⟩ : CoinAgg).long +
            (⟨"BTC", 1500, 0, 3 / 200, 0, 1500⟩ : CoinAgg).short =
          (((allPositions exT1).filter (fun p =>
              p.coin = (⟨"BTC", 1500, 0, 3 / 200, 0, 1500⟩ : CoinAgg).coin)).map
            (fun p => p.positionValue)).sum) :=
  ⟨by rw [eval_agg_exT1]; exact List.mem_cons_self _ _,
    aggregator_total_eq_sum_positions exT1 _
      (by rw [eval_agg_exT1]; exact List.mem_cons_self _ _)⟩

/-- C6: for every input sequence and numeric key the Ranking Selector
    `topNBy` returns at most `n` entries, the result is sorted by key
    descending (for positions `i < j`, `key (result j) ≤ key (result i)`),
    and equal keys keep the input iteration order (stable): for every key
    value, the result's entries with that key are an initial segment of the
    input's entries with that key. -/
theorem ranking_selector_topN {α : Type} (key : α → ℚ) (n : ℕ) (l : List α) :
    (topNBy key n l).length ≤ n ∧
      (∀ i j : Fin (topNBy key n l).length, i < j →
        key ((topNBy key n l).get j) ≤ key ((topNBy key n l).get i)) ∧
      (∀ k : ℚ, ∃ rest : List α,
        l.filter (fun x => key x = k) =
          (topNBy key n l).filter (fun x => key x = k) ++ rest) := by
  refine ⟨List.length_take_le n _, ?_, ?_⟩
  · have hp : (topNBy key n l).Pairwise (fun x y => key y ≤ key x) :=
      List.Pairwise.sublist (List.take_sublist n _) (sorted_sortDescBy key l)
    intro i j hij
    exact List.pairwise_iff_get.1 hp i j hij
  · intro k
    refine ⟨((sortDescBy key l).drop n).filter (fun x => key x = k), ?_⟩
    rw [← filter_sortDescBy key k l]
    conv_lhs => rw [← List.take_append_drop n (sortDescBy key l)]
    rw [List.filter_append]
    rfl

/-- Witness for C6 on a concrete three-element list. -/
theorem ranking_selector_topN_witness :
    (topNBy (fun q : ℚ => q) 2 exRank).length ≤ 2 ∧
      topNBy (fun q : ℚ => q) 2 exRank = [3, 2] :=
  ⟨(ranking_selector_topN (fun q : ℚ => q) 2 exRank).1,
    by with_unfolding_all decide⟩

/-- C7: in every emitted liquidation-map entry both bucket lists are sorted
    by bucket price in ascending order, every bucket entry is a `Bucket`
    record carrying all four tier fields (zero-filled when empty), and no
    bucket whose four tier sums are all 0 appears in either list. -/
theorem liq_map_buckets_sorted_nonzero (traders : List Trader)
    (prices : PriceTable) (c : String) (entry : CoinLiq)
    (h : (c, entry) ∈ build_liq_map traders prices) :
    entry.longLiquidations.Pairwise (fun a b => a.price ≤ b.price) ∧
      entry.shortLiquidations.Pairwise (fun a b => a.price ≤ b.price) ∧
      ∀ b ∈ entry.longLiquidations ++ entry.shortLiquidations,
        ¬ (b.t10 = 0 ∧ b.t25 = 0 ∧ b.t50 = 0 ∧ b.t100 = 0) := by
  rcases coinEntry_eq_some (mem_build_liq_map h) with ⟨-, -, -, hentry⟩
  subst hentry
  refine ⟨sideList_sorted _ _, sideList_sorted _ _, ?_⟩
  intro b hb hz
  have hpos : 0 < b.total := by
    rcases List.mem_append.1 hb with hb' | hb'
    · exact sideList_total_pos hb'
    · exact sideList_total_pos hb'
  rw [Bucket.total, hz.1, hz.2.1, hz.2.2.1, hz.2.2.2] at hpos
  norm_num at hpos

/-- Witness for C7 at the worked example input. -/
theorem liq_map_buckets_sorted_nonzero_witness :
    (("BTC", exEntry1) ∈ build_liq_map exT1 exP1) ∧
      exEntry1.longLiquidations.Pairwise (fun a b => a.price ≤ b.price) :=
  ⟨by rw [eval_build_exT1]; exact List.mem_cons_self _ _,
    (liq_map_buckets_sorted_nonzero exT1 exP1 "BTC" exEntry1
      (by rw [eval_build_exT1]; exact List.mem_cons_self _ _)).1⟩

/-- C1 counterexample: at the spec's own worked example input (price table
    `{BTC: 100000}`, long positions (liq 98000, value 1000, lev 12) and
    (liq 97500, value 500, lev 30)) the output is NOT one long bucket at
    97000 with tier sums `{10x: 1000, 25x: 500, 50x: 0, 100x: 0}`: the
    position with liquidation price 98000 floors to bucket 98000, not
    97000. -/
theorem bucketizer_spec_example_cex :
    build_liq_map exT1 exP1 ≠ [("BTC", exEntryClaim1)] := by
  rw [eval_build_exT1]
  norm_num [exEntry1, exEntryClaim1]

/-- C1 amended: at the spec's worked example input the bucket width for BTC
    is 1000 and the tiers are 10x (lev 12) and 25x (lev 30) as claimed, but
    the two positions fall into the two distinct buckets 97000 (lev-30
    value 500) and 98000 (lev-12 value 1000); the output has exactly these
    two long buckets, in ascending price order, and no short bucket. -/
theorem bucketizer_spec_example_actual :
    get_bucket_size "BTC" 100000 = 1000 ∧
      get_lev_cat 12 = Cat.c10 ∧
      get_lev_cat 30 = Cat.c25 ∧
      build_liq_map exT1 exP1 = [("BTC", exEntry1)] :=
  ⟨by with_unfolding_all decide, by with_unfolding_all decide,
    by with_unfolding_all decide, eval_build_exT1⟩

/-- C2 counterexample: with price table `{AAA: 150}` (bucket width 10, valid
    range `[75, 225]`) and two long positions at liquidation price 76, the
    emitted bucket price is `floor(76 / 10) * 10 = 70`, which lies outside
    `[0.5 * 150, 1.5 * 150]`. -/
theorem bucket_price_range_cex :
    ¬ (∀ e ∈ build_liq_map exT2 exP2,
        ∀ b ∈ e.2.longLiquidations ++ e.2.shortLiquidations,
          lookupPrice exP2 e.1 * (1 / 2) ≤ b.price ∧
            b.price ≤ lookupPrice exP2 e.1 * (3 / 2)) := by
  intro hall
  have hmem : ("AAA", exEntry2) ∈ build_liq_map exT2 exP2 := by
    rw [eval_build_exT2]
    exact List.mem_cons_self _ _
  have hb := hall _ hmem (⟨70, 150, 0, 0, 0⟩ : Bucket)
    (by with_unfolding_all decide)
  have hlp : lookupPrice exP2 "AAA" = 150 := by with_unfolding_all decide
  rw [hlp] at hb
  have h1 := hb.1
  norm_num at h1

/-- C2 amended: every bucket price emitted for a coin `c` lies within
    `[0.5 * P - w, 1.5 * P]`, where `P` is the price table's price for `c`
    and `w` is the coin's bucket width: flooring to the bucket grid can move
    an in-range liquidation price below `0.5 * P` by less than one bucket
    width, but never above `1.5 * P`. -/
theorem bucket_price_within_widened_range (traders : List Trader)
    (prices : PriceTable) (c : String) (entry : CoinLiq) (b : Bucket)
    (h : (c, entry) ∈ build_liq_map traders prices)
    (hb : b ∈ entry.longLiquidations ∨ b ∈ entry.shortLiquidations) :
    lookupPrice prices c * (1 / 2) -
        get_bucket_size c (lookupPrice prices c) ≤ b.price ∧
      b.price ≤ lookupPrice prices c * (3 / 2) := by
  rcases coinEntry_eq_some (mem_build_liq_map h) with ⟨-, -, -, hentry⟩
  subst hentry
  rcases hb with hb | hb
  all_goals
    rcases mem_sideList_price hb with ⟨p, hp, hbp⟩
    rcases List.mem_filter.1 hp with ⟨hp2, -⟩
    rcases List.mem_filter.1 hp2 with ⟨-, hrange⟩
    rw [decide_eq_true_eq] at hrange
    rw [hbp, bkey_bucket_size]
    exact ⟨lt_floor_mul (bucket_size_pos c _) hrange.1,
      floor_mul_le (bucket_size_pos c _) hrange.2⟩

/-- Witness for C2 at the counterexample input: the bucket at price 70 obeys
    the widened bound `75 - 10 ≤ 70 ≤ 225`. -/
theorem bucket_price_within_widened_range_witness :
    (("AAA", exEntry2) ∈ build_liq_map exT2 exP2) ∧
      (lookupPrice exP2 "AAA" * (1 / 2) -
          get_bucket_size "AAA" (lookupPrice exP2 "AAA") ≤
        (⟨70, 150, 0, 0, 0⟩ : Bucket).price ∧
        (⟨70, 150, 0, 0, 0⟩ : Bucket).price ≤
          lookupPrice exP2 "AAA" * (3 / 2)) :=
  ⟨by rw [eval_build_exT2]; exact List.mem_cons_self _ _,
    bucket_price_within_widened_range exT2 exP2 "AAA" exEntry2 _
      (by rw [eval_build_exT2]; exact List.mem_cons_self _ _)
      (Or.inl (by with_unfolding_all decide))⟩

/-- C3: a coin with fewer than 2 positions carrying a valid (defined,
    positive, at most 1e12) liquidation price never appears in the
    liquidation map; the concrete instance `exT3` (one valid point) shows it
    may still appear in the coin aggregation output. -/
theorem liq_map_requires_two_valid_points :
    (∀ (traders : List Trader) (prices : PriceTable) (c : String),
        ((validPositions traders).filter (fun p => p.coin = c)).length < 2 →
        ∀ e ∈ build_liq_map traders prices, e.1 ≠ c) ∧
      (((validPositions exT3).filter (fun p => p.coin = "ZZZ")).length = 1 ∧
        (∀ e ∈ build_liq_map exT3 exP3, e.1 ≠ "ZZZ") ∧
        ∃ r ∈ aggregate_positions exT3, r.coin = "ZZZ") := by
  constructor
  · intro traders prices c hcount e he heq
    have h2 := (build_mem_fst he).1
    rw [heq] at h2
    omega
  · refine ⟨by with_unfolding_all decide, ?_, ?_⟩
    · rw [eval_build_exT3]
      intro e he
      exact absurd he (List.not_mem_nil _)
    · rw [eval_agg_exT3]
      exact ⟨_, List.mem_cons_self _ _, rfl⟩

/-- Witness for C3: the single-valid-point coin `ZZZ` is not in the map. -/
theorem liq_map_requires_two_valid_points_witness :
    ("ZZZ", CoinLiq.mk 10 [] []) ∉ build_liq_map exT3 exP3 :=
  fun hmem =>
    liq_map_requires_two_valid_points.1 exT3 exP3 "ZZZ"
      (by with_unfolding_all decide) _ hmem rfl

/-- C9: a coin with no PriceTable entry, or a non-positive one, is excluded
    from the liquidation map (the lookup yields the default 0 and the coin
    is skipped, never an error: the function is total); the concrete
    instance `exT9` (two valid liquidation points but an empty price table)
    shows its positions are still fully counted by the price-free Coin
    Aggregator. -/
theorem missing_price_excluded_still_aggregated :
    (∀ (traders : List Trader) (prices : PriceTable) (c : String),
        lookupPrice prices c ≤ 0 →
        ∀ e ∈ build_liq_map traders prices, e.1 ≠ c) ∧
      (lookupPrice exP9 "NOP" ≤ 0 ∧
        (∀ e ∈ build_liq_map exT9 exP9, e.1 ≠ "NOP") ∧
        aggregate_positions exT9 =
          [{ coin := "NOP", long := 300, short := 0, longSize := 2,
             shortSize := 0, total := 300 }]) := by
  constructor
  · intro traders prices c hp e he heq
    have h3 := (build_mem_fst he).2
    rw [heq] at h3
    exact absurd h3 (not_lt_of_le hp)
  · refine ⟨by with_unfolding_all decide, ?_, eval_agg_exT9⟩
    rw [eval_build_exT9]
    intro e he
    exact absurd he (List.not_mem_nil _)

/-- Witness for C9: `NOP` has no price entry and is absent from the map. -/
theorem missing_price_excluded_still_aggregated_witness :
    ("NOP", CoinLiq.mk 0 [] []) ∉ build_liq_map exT9 exP9 :=
  fun hmem =>
    missing_price_excluded_still_aggregated.1 exT9 exP9 "NOP"
      (by with_unfolding_all decide) _ hmem rfl

/-- C4 counterexample: the Hyperliquid normalizer `fetch_positions` does NOT
    give every produced position a strictly positive leverage: when the
    source record's `leverage` dict has no usable `value`, it records
    leverage 0, not the placeholder 5. -/
theorem normalizer_positive_leverage_cex :
    ¬ (∀ p ∈ hl_fetch_positions [exHL4], 0 < p.leverage) := by
  with_unfolding_all decide

/-- C4 amended: only the Drift normalizer applies the positive placeholder:
    whenever the source record reports a nonnegative leverage and the
    computed `positionValue` is positive, the produced Drift position has
    strictly positive leverage, and an unreported (zero) leverage is set to
    exactly the placeholder 5.  The Hyperliquid normalizer instead records
    leverage 0 when the source does not report it (see the
    counterexample). -/
theorem drift_leverage_placeholder (r : DriftRawPos) (q : DriftPos)
    (h : drift_normalize r = some q) (hnn : 0 ≤ r.leverage)
    (hpv : 0 < q.positionValue) :
    0 < q.leverage ∧ (r.leverage = 0 → q.leverage = 5) := by
  by_cases hbase : r.baseAssetAmount = 0
  · rw [drift_normalize, if_pos hbase] at h
    exact absurd h (by simp)
  · rw [drift_normalize, if_neg hbase] at h
    simp only [Option.some.injEq] at h
    subst h
    dsimp only at hpv ⊢
    by_cases hl : r.leverage = 0
    · rw [if_pos ⟨hl, hpv⟩]
      exact ⟨by norm_num, fun _ => rfl⟩
    · rw [if_neg (fun hc => hl hc.1)]
      exact ⟨lt_of_le_of_ne hnn (Ne.symm hl), fun h0 => absurd h0 hl⟩

/-- Witness for C4 at a concrete Drift record reporting no leverage but a
    positive notional: the produced leverage is the placeholder 5. -/
theorem drift_leverage_placeholder_witness :
    drift_normalize exDrift4 =
        some ⟨"SOL", Dir.long, 1, 10, 5, 10, 0, none⟩ ∧
      0 ≤ exDrift4.leverage ∧
      (0 : ℚ) <
        (⟨"SOL", Dir.long, 1, 10, 5, 10, 0, none⟩ : DriftPos).positionValue ∧
      0 < (⟨"SOL", Dir.long, 1, 10, 5, 10, 0, none⟩ : DriftPos).leverage ∧
      (⟨"SOL", Dir.long, 1, 10, 5, 10, 0, none⟩ : DriftPos).leverage = 5 := by
  have h : drift_normalize exDrift4 =
      some ⟨"SOL", Dir.long, 1, 10, 5, 10, 0, none⟩ := by
    with_unfolding_all decide
  have main := drift_leverage_placeholder exDrift4 _ h (le_refl 0)
    (by norm_num)
  exact ⟨h, le_refl 0, by norm_num, main.1, main.2 rfl⟩

/-- C10: for every coin emitted in the liquidation map, if all input
    positionValues are non-negative then the sum of the four tier sums over
    all emitted long and short buckets equals the sum of `positionValue`
    over exactly the coin's positions whose liquidation price is valid
    (parses positive and at most 1e12) and lies inside `[0.5 * P, 1.5 * P]`:
    bucketizing neither loses nor double-counts any in-range notional. -/
theorem liq_map_conserves_notional (traders : List Trader)
    (prices : PriceTable) (c : String) (entry : CoinLiq)
    (h : (c, entry) ∈ build_liq_map traders prices)
    (hnn : ∀ t ∈ traders, ∀ p ∈ t.positions, 0 ≤ p.positionValue) :
    (entry.longLiquidations.map Bucket.total).sum +
        (entry.shortLiquidations.map Bucket.total).sum =
      ((((validPositions traders).filter (fun p => p.coin = c)).filter
          (fun p => lookupPrice prices c * (1 / 2) ≤ p.liq ∧
            p.liq ≤ lookupPrice prices c * (3 / 2))).map
        (fun p => p.positionValue)).sum := by
  rcases coinEntry_eq_some (mem_build_liq_map h) with ⟨-, -, -, hentry⟩
  subst hentry
  have hvp := validPositions_value_nonneg hnn
  have hinr : ∀ p ∈ ((validPositions traders).filter
      (fun p => p.coin = c)).filter
        (fun p => lookupPrice prices c * (1 / 2) ≤ p.liq ∧
          p.liq ≤ lookupPrice prices c * (3 / 2)), 0 ≤ p.positionValue := by
    intro p hp
    exact hvp p (List.mem_filter.1 (List.mem_filter.1 hp).1).1
  have hlong : ∀ p ∈ (((validPositions traders).filter
      (fun p => p.coin = c)).filter
        (fun p => lookupPrice prices c * (1 / 2) ≤ p.liq ∧
          p.liq ≤ lookupPrice prices c * (3 / 2))).filter
        (fun p => p.direction = Dir.long), 0 ≤ p.positionValue := by
    intro p hp
    exact hinr p (List.mem_filter.1 hp).1
  have hshort : ∀ p ∈ (((validPositions traders).filter
      (fun p => p.coin = c)).filter
        (fun p => lookupPrice prices c * (1 / 2) ≤ p.liq ∧
          p.liq ≤ lookupPrice prices c * (3 / 2))).filter
        (fun p => ¬ p.direction = Dir.long), 0 ≤ p.positionValue := by
    intro p hp
    exact hinr p (List.mem_filter.1 hp).1
  dsimp only
  rw [sum_sideList_total hlong, sum_sideList_total hshort]
  exact sum_map_filter_prop_add (fun p : LiqPosition => p.direction = Dir.long)
    (fun p : LiqPosition => p.positionValue) _

/-- Witness for C10 at the worked example input: the two long buckets sum to
    1500, the total in-range notional. -/
theorem liq_map_conserves_notional_witness :
    (("BTC", exEntry1) ∈ build_liq_map exT1 exP1) ∧
      (exEntry1.longLiquidations.map Bucket.total).sum +
          (exEntry1.shortLiquidations.map Bucket.total).sum =
        ((((validPositions exT1).filter (fun p => p.coin = "BTC")).filter
            (fun p => lookupPrice exP1 "BTC" * (1 / 2) ≤ p.liq ∧
              p.liq ≤ lookupPrice exP1 "BTC" * (3 / 2))).map
          (fun p => p.positionValue)).sum :=
  ⟨by rw [eval_build_exT1]; exact List.mem_cons_self _ _,
    liq_map_conserves_notional exT1 exP1 "BTC" exEntry1
      (by rw [eval_build_exT1]; exact List.mem_cons_self _ _)
      (by with_unfolding_all decide)⟩
